import Mathlib

/-!
Shallow embedding of the snarkVM DPC outer circuit
(`src/dpc/src/circuits/outer_circuit.rs`) and program orchestrator
(`src/dpc/src/program/program.rs`).

The outer synthesis routine is modelled as a function from the outer
public/private variables to the ordered trace of constraint-system
events it emits: allocations (tagged constant / public input / witness),
bit-equality enforcements, commitment and digest equality enforcements,
and the two in-circuit SNARK verification calls.  The cryptographic
capabilities the routine consumes (CRHs, the Merkle-root computation of
`MerklePathGadget::calculate_root`, the commitment scheme, bit
decompositions of gadget values) are external collaborators; they are
modelled as plain functions bundled in a `Network` record, mirroring the
`N: Network` trait parameter of the Rust code.  Field elements, digests,
bytes, keys, proofs and paths are all carried as `Nat`.

The `itertools::zip_eq` iteration over kernel commitments and encrypted
record hashes panics when the two lengths differ; a panic is modelled as
the `none` result of the outer `Option` layer, while typed
`SynthesisError` returns live in the inner `Except` layer.
-/

namespace SnarkVM

/-- The variants of `snarkvm_r1cs::SynthesisError` that matter here.
`AssignmentMissing` is the only one this file's code ever constructs. -/
inductive SynthesisError where
  | AssignmentMissing
  | DivisionByZero
  | Unsatisfiable
  deriving DecidableEq, Repr

/-- A domain value as seen through `ToConstraintField<N::InnerScalarField>`:
`fe` is the result of `to_field_elements()` (`none` models the fallible
conversion failing), and `raw` is the native value itself, used where the
value is allocated as an opaque gadget (the program commitment output). -/
structure CFVal where
  raw : Nat
  fe : Option (List Nat)
  deriving DecidableEq, Repr

/-- The field elements of a value, defined when conversion succeeds. -/
def feOf (v : CFVal) : List Nat :=
  v.fe.getD []

/-- Whether every value in a list converts to field elements. -/
def allConvert (vs : List CFVal) : Bool :=
  vs.all (fun v => v.fe.isSome)

/-- How a circuit variable is allocated: `alloc_constant`, `alloc_input`
(public-input slot), or `alloc` (private witness). -/
inductive AllocKind where
  | const
  | pubInput
  | witness
  deriving DecidableEq, Repr

/-- Which logical value an allocation is for (with its declared index
where the source allocates per-record or per-element). -/
inductive Slot where
  | paramsCommitment
  | paramsCircuitIdCRH
  | paramsCircuitIdTreeCRH
  | paramsInnerIdCRH
  | ledgerDigest
  | serialNumber (i : Nat)
  | commitment (i : Nat)
  | encryptedRecordHash (i : Nat)
  | memo
  | networkId
  | valueBalance
  | programCommitment
  | localDataRootInner
  | localDataRootProgram
  | innerVk
  | innerProof
  | programProof (i : Nat)
  | programVk (i : Nat)
  | merklePath (i : Nat)
  | position (i : Nat)
  | commitmentRandomness
  | commitmentOutput
  | innerCircuitId
  deriving DecidableEq, Repr

/-- One constraint-system event emitted during synthesis. -/
inductive Event where
  | alloc (kind : AllocKind) (slot : Slot) (payload : List Nat)
  | enforceEqualBits (a b : List Bool)
  | enforceEqualComm (a b : Nat)
  | enforceEqualDigest (a b : Nat)
  | checkInnerVerify (vk : Nat) (input : List Nat) (proof : Nat)
  | checkProgramVerify (vk : Nat) (input : List Nat) (proof : Nat)
  deriving DecidableEq, Repr

/-- The external capabilities consumed by the outer circuit, mirroring
the associated items of the `N: Network` trait parameter.  Positions are
encoded as `InnerScalarField::from(index as u128)`; the field
characteristic far exceeds any record index, so index-to-field-element
is modelled as the identity on `Nat`. -/
structure Network where
  NUM_TOTAL_RECORDS : Nat
  /-- `to_bits_le` on an inner-SNARK input gadget. -/
  innerBits : List Nat → List Bool
  /-- `to_bits_le` on a program-SNARK input gadget. -/
  programBits : List Nat → List Bool
  /-- `to_minimal_bits` of a program circuit verifying key. -/
  programVkMinimalBits : Nat → List Bool
  /-- `to_minimal_bits` of the inner SNARK verifying key. -/
  innerVkMinimalBits : Nat → List Bool
  /-- `ProgramCircuitIDCRH` evaluated on bits. -/
  circuitIdCRH : List Bool → Nat
  /-- `to_bytes` of a circuit-ID digest. -/
  digestToBytes : Nat → List Nat
  /-- `MerklePathGadget::calculate_root` under `ProgramCircuitIDTreeCRH`:
  path, leaf bytes ↦ root digest. -/
  calcRoot : Nat → List Nat → Nat
  /-- `to_bytes` of a program-ID root digest. -/
  rootToBytes : Nat → List Nat
  /-- `ProgramCommitment::commit`: input bytes, randomness ↦ commitment. -/
  commit : List Nat → Nat → Nat
  /-- `InnerCircuitIDCRH` evaluated on bits. -/
  innerCircuitIdCRH : List Bool → Nat

/-- The `TransactionKernel` fields read by the outer circuit.
`network_id` and `value_balance` stand for the `to_le_bytes()` forms the
source passes to the allocator. -/
structure TransactionKernel where
  serial_numbers : List CFVal
  commitments : List CFVal
  memo : CFVal
  network_id : CFVal
  value_balance : CFVal
  deriving DecidableEq, Repr

/-- The inner public variables reachable from `OuterPublicVariables`.
The `program_commitment` and `local_data_root` options are `none` in the
outer circuit (they are re-allocated as witnesses); the source only
`debug_assert!`s this, which compiles out in release builds. -/
structure InnerPublicVariables where
  ledger_digest : CFVal
  kernel : TransactionKernel
  encrypted_record_hashes : List CFVal
  program_commitment : Option Unit
  local_data_root : Option Unit
  deriving DecidableEq, Repr

structure OuterPublicVariables where
  inner_public_variables : InnerPublicVariables
  inner_circuit_id : Nat
  deriving DecidableEq, Repr

/-- One per-record `Execution` bundle: membership path, verifying key,
proof (each carried as an opaque `Nat`). -/
structure Execution where
  program_path : Nat
  verifying_key : Nat
  proof : Nat
  deriving DecidableEq, Repr

structure OuterPrivateVariables where
  inner_snark_vk : Nat
  inner_snark_proof : Nat
  program_proofs : List Execution
  program_commitment : CFVal
  program_randomness : Nat
  local_data_root : CFVal
  deriving DecidableEq, Repr

/-- `alloc_inner_snark_input_field_element`: convert the value to field
elements (failure becomes `AssignmentMissing`), allocate each element as
its own public-input slot, and return the `merge_many` of the singleton
gadgets, i.e. the element list itself. -/
def allocInputFE (s : Slot) (v : CFVal) :
    Except SynthesisError (List Event × List Nat) :=
  match v.fe with
  | none => .error .AssignmentMissing
  | some fes => .ok (fes.map (fun x => .alloc .pubInput s [x]), fes)

/-- `alloc_inner_snark_field_element` / `alloc_program_snark_field_element`:
convert the value to field elements (failure becomes `AssignmentMissing`)
and allocate the whole vector as one private witness gadget. -/
def allocWitnessFE (s : Slot) (v : CFVal) :
    Except SynthesisError (List Event × List Nat) :=
  match v.fe with
  | none => .error .AssignmentMissing
  | some fes => .ok ([.alloc .witness s fes], fes)

/-- The serial-number loop: allocate each serial number as public-input
field elements, then `merge_many` the per-number gadgets. -/
def allocSerialNumbers : List CFVal → Nat →
    Except SynthesisError (List Event × List Nat)
  | [], _ => .ok ([], [])
  | sn :: rest, i =>
    match allocInputFE (.serialNumber i) sn with
    | .error e => .error e
    | .ok (e1, f1) =>
      match allocSerialNumbers rest (i + 1) with
      | .error e => .error e
      | .ok (e2, f2) => .ok (e1 ++ e2, f1 ++ f2)

/-- The commitment / encrypted-record-hash loop over
`commitments().iter().zip_eq(encrypted_record_hashes.iter())`.
`zip_eq` panics (the `none` result) as soon as one iterator is exhausted
while the other is not; within each yielded pair the commitment is
allocated before the encrypted record hash. -/
def allocCommitmentPairs : List CFVal → List CFVal → Nat →
    Option (Except SynthesisError (List Event × List Nat))
  | [], [], _ => some (.ok ([], []))
  | cm :: cms, erh :: erhs, i =>
    match allocInputFE (.commitment i) cm with
    | .error e => some (.error e)
    | .ok (e1, f1) =>
      match allocInputFE (.encryptedRecordHash i) erh with
      | .error e => some (.error e)
      | .ok (e2, f2) =>
        match allocCommitmentPairs cms erhs (i + 1) with
        | none => none
        | some (.error e) => some (.error e)
        | some (.ok (e3, f3)) => some (.ok (e1 ++ e2 ++ e3, f1 ++ f2 ++ f3))
  | _, _, _ => none

/-- The candidate program identifier recomputed for one record: hash the
verifying key's minimal bits into a circuit ID, serialize it, walk the
record's membership path to the implied root, and serialize that root. -/
def claimedProgramIdBytes (net : Network) (e : Execution) : List Nat :=
  net.rootToBytes
    (net.calcRoot e.program_path
      (net.digestToBytes (net.circuitIdCRH (net.programVkMinimalBits e.verifying_key))))

/-- The events emitted for one record slot `i`: witness allocations of
the proof, verifying key and membership path, the constant allocation of
the slot position `i`, and the program-proof verification against the
position merged with the program-domain local data root. -/
def recordEvents (ldrProg : List Nat) (i : Nat) (e : Execution) : List Event :=
  [.alloc .witness (.programProof i) [e.proof],
   .alloc .witness (.programVk i) [e.verifying_key],
   .alloc .witness (.merklePath i) [e.program_path],
   .alloc .const (.position i) [i],
   .checkProgramVerify e.verifying_key (i :: ldrProg) e.proof]

/-- The per-record loop of `execute_outer_circuit` over the first
`NUM_TOTAL_RECORDS` entries of `program_proofs`: emits the events of
each slot in order and collects the candidate program IDs in slot
order. -/
def processRecords (net : Network) (ldrProg : List Nat) :
    List Execution → Nat → List Event × List (List Nat)
  | [], _ => ([], [])
  | e :: rest, i =>
    (recordEvents ldrProg i e ++ (processRecords net ldrProg rest (i + 1)).1,
     claimedProgramIdBytes net e :: (processRecords net ldrProg rest (i + 1)).2)

/-- The program-commitment check: concatenate the candidate program IDs
(in slot order, capped at `NUM_TOTAL_RECORDS`), allocate the witness
randomness and the witness commitment, recompute the commitment over the
concatenation and enforce equality with the declared one. -/
def commitmentCheckEvents (net : Network) (priv : OuterPrivateVariables)
    (ids : List (List Nat)) : List Event :=
  let input := (ids.take net.NUM_TOTAL_RECORDS).flatten
  [.alloc .witness .commitmentRandomness [priv.program_randomness],
   .alloc .witness .commitmentOutput [priv.program_commitment.raw],
   .enforceEqualComm (net.commit input priv.program_randomness)
     priv.program_commitment.raw]

/-- The inner-circuit-ID check: allocate the declared inner circuit ID
as a public input, recompute the CRH of the inner verifying key's
minimal bits, and enforce equality. -/
def innerIdCheckEvents (net : Network) (pub : OuterPublicVariables)
    (priv : OuterPrivateVariables) : List Event :=
  [.alloc .pubInput .innerCircuitId [pub.inner_circuit_id],
   .enforceEqualDigest
     (net.innerCircuitIdCRH (net.innerVkMinimalBits priv.inner_snark_vk))
     pub.inner_circuit_id]

/-- The four `alloc_constant` parameter declarations at the top of
`execute_outer_circuit`. -/
def paramEvents : List Event :=
  [.alloc .const .paramsCommitment [],
   .alloc .const .paramsCircuitIdCRH [],
   .alloc .const .paramsCircuitIdTreeCRH [],
   .alloc .const .paramsInnerIdCRH []]

/-- `execute_outer_circuit`: the full synthesis routine as a trace of
events.  `none` models the `zip_eq` panic; a typed `SynthesisError`
aborts synthesis with that error; otherwise the ordered event trace is
returned. -/
def execute_outer_circuit (net : Network) (pub : OuterPublicVariables)
    (priv : OuterPrivateVariables) :
    Option (Except SynthesisError (List Event)) :=
  match allocInputFE .ledgerDigest pub.inner_public_variables.ledger_digest with
  | .error e => some (.error e)
  | .ok (ldE, ldF) =>
  match allocSerialNumbers pub.inner_public_variables.kernel.serial_numbers 0 with
  | .error e => some (.error e)
  | .ok (snE, snF) =>
  match allocCommitmentPairs pub.inner_public_variables.kernel.commitments
      pub.inner_public_variables.encrypted_record_hashes 0 with
  | none => none
  | some (.error e) => some (.error e)
  | some (.ok (cmE, cmF)) =>
  match allocInputFE .memo pub.inner_public_variables.kernel.memo with
  | .error e => some (.error e)
  | .ok (mmE, mmF) =>
  match allocInputFE .networkId pub.inner_public_variables.kernel.network_id with
  | .error e => some (.error e)
  | .ok (niE, niF) =>
  match allocInputFE .valueBalance pub.inner_public_variables.kernel.value_balance with
  | .error e => some (.error e)
  | .ok (vbE, vbF) =>
  match allocWitnessFE .programCommitment priv.program_commitment with
  | .error e => some (.error e)
  | .ok (pcE, pcF) =>
  match allocWitnessFE .localDataRootInner priv.local_data_root with
  | .error e => some (.error e)
  | .ok (ldiE, ldiF) =>
  match allocWitnessFE .localDataRootProgram priv.local_data_root with
  | .error e => some (.error e)
  | .ok (ldpE, ldpF) =>
  some (.ok (paramEvents ++ ldE ++ snE ++ cmE ++ mmE ++ niE ++ vbE ++ pcE ++
    ldiE ++ ldpE ++
    [.enforceEqualBits (net.innerBits ldiF) (net.programBits ldpF)] ++
    [.alloc .witness .innerVk [priv.inner_snark_vk],
     .alloc .witness .innerProof [priv.inner_snark_proof],
     .checkInnerVerify priv.inner_snark_vk
       (ldF ++ snF ++ cmF ++ pcF ++ mmF ++ niF ++ ldiF ++ vbF)
       priv.inner_snark_proof] ++
    (processRecords net ldpF (priv.program_proofs.take net.NUM_TOTAL_RECORDS) 0).1 ++
    commitmentCheckEvents net priv
      (processRecords net ldpF (priv.program_proofs.take net.NUM_TOTAL_RECORDS) 0).2 ++
    innerIdCheckEvents net pub priv))

/-- Whether an event is a program-proof verification call. -/
def Event.isProgramVerify : Event → Bool
  | .checkProgramVerify _ _ _ => true
  | _ => false

/-- Whether an event is an equality enforcement. -/
def Event.isEnforce : Event → Bool
  | .enforceEqualBits _ _ => true
  | .enforceEqualComm _ _ => true
  | .enforceEqualDigest _ _ => true
  | _ => false

/-- Whether an event allocates a public-input slot. -/
def Event.isPubInputAlloc : Event → Bool
  | .alloc .pubInput _ _ => true
  | _ => false

/-- Whether some value the routine must bind as a circuit variable fails
its conversion to field elements. -/
def conversionFails (pub : OuterPublicVariables) (priv : OuterPrivateVariables) : Bool :=
  !(pub.inner_public_variables.ledger_digest.fe.isSome
    && allConvert pub.inner_public_variables.kernel.serial_numbers
    && allConvert pub.inner_public_variables.kernel.commitments
    && allConvert pub.inner_public_variables.encrypted_record_hashes
    && pub.inner_public_variables.kernel.memo.fe.isSome
    && pub.inner_public_variables.kernel.network_id.fe.isSome
    && pub.inner_public_variables.kernel.value_balance.fe.isSome
    && priv.program_commitment.fe.isSome
    && priv.local_data_root.fe.isSome)

/-!
## Program orchestrator (`src/dpc/src/program/program.rs`)
-/

/-- The `ProgramError` variants that matter here: `MerkleError::MissingLeaf`
converted into a `ProgramError`, and a circuit-level proving failure. -/
inductive ProgramError where
  | MissingLeaf (id : Nat)
  | CircuitFailure (code : Nat)
  deriving DecidableEq, Repr

/-- One `dyn ProgramCircuit<N>` trait object: its identifier, verifying
key, real proving routine and blank proving routine. -/
structure ProgramCircuit where
  circuit_id : Nat
  verifying_key : Nat
  run : Nat → Nat → Except ProgramError Nat
  run_blank : Except ProgramError Nat

/-- Modelled from the spec: `ProgramCircuitTree` (the circuit registry of
§4.1) is declared outside the provided sources; per the spec it is a
frozen ordered collection of circuits with pure lookups, where
`get_circuit` finds a circuit by identifier (absence is a normal
outcome) and `get_program_path` returns the membership path of an
inserted identifier and fails with a missing-leaf condition for an
identifier that was never inserted. -/
structure ProgramCircuitTree where
  circuits : List ProgramCircuit
  pathOf : Nat → Nat

/-- `ProgramCircuitTree::get_circuit`. -/
def ProgramCircuitTree.get_circuit (t : ProgramCircuitTree) (id : Nat) :
    Option ProgramCircuit :=
  t.circuits.find? (fun c => c.circuit_id == id)

/-- `ProgramCircuitTree::contains_circuit`. -/
def ProgramCircuitTree.contains_circuit (t : ProgramCircuitTree) (id : Nat) : Bool :=
  (t.get_circuit id).isSome

/-- `ProgramCircuitTree::get_program_path`: membership path for an
inserted identifier, missing-leaf otherwise. -/
def ProgramCircuitTree.get_program_path (t : ProgramCircuitTree) (id : Nat) :
    Except ProgramError Nat :=
  if t.contains_circuit id then .ok (t.pathOf id) else .error (.MissingLeaf id)

/-- `Program<N>`: owns a frozen circuit tree. -/
structure Program where
  circuits : ProgramCircuitTree

/-- `Program::execute`: look the circuit up (missing-leaf if absent),
fetch its membership path, run its real proving routine, and package the
resulting `Execution`.  The `debug_assert!` checks of the source compile
out in release builds and add no behaviour. -/
def Program.execute (p : Program) (circuit_id : Nat) (pub priv : Nat) :
    Except ProgramError Execution :=
  match p.circuits.get_circuit circuit_id with
  | none => .error (.MissingLeaf circuit_id)
  | some circuit =>
    match p.circuits.get_program_path circuit_id with
    | .error e => .error e
    | .ok program_path =>
      match circuit.run pub priv with
      | .error e => .error e
      | .ok proof =>
        .ok { program_path := program_path,
              verifying_key := circuit.verifying_key,
              proof := proof }

/-- `Program::execute_blank`: same lookup and path derivation, but runs
the circuit's placeholder proving routine. -/
def Program.execute_blank (p : Program) (circuit_id : Nat) :
    Except ProgramError Execution :=
  match p.circuits.get_circuit circuit_id with
  | none => .error (.MissingLeaf circuit_id)
  | some circuit =>
    match p.circuits.get_program_path circuit_id with
    | .error e => .error e
    | .ok program_path =>
      match circuit.run_blank with
      | .error e => .error e
      | .ok proof =>
        .ok { program_path := program_path,
              verifying_key := circuit.verifying_key,
              proof := proof }

/-!
## Concrete instances used to evaluate the embedding
-/

/-- A small concrete network instantiation with two total records. -/
def wNet : Network where
  NUM_TOTAL_RECORDS := 2
  innerBits := fun l => l.map (fun x => x % 2 == 1)
  programBits := fun l => l.map (fun x => x % 2 == 0)
  programVkMinimalBits := fun n => [n % 2 == 1]
  innerVkMinimalBits := fun n => [n % 2 == 1]
  circuitIdCRH := fun b => b.length
  digestToBytes := fun d => [d]
  calcRoot := fun p l => p + l.length
  rootToBytes := fun d => [d, d + 1]
  commit := fun bs r => bs.foldl (fun a b => a + b) r
  innerCircuitIdCRH := fun b => b.length + 3

def wKernel : TransactionKernel where
  serial_numbers := [⟨0, some [2]⟩, ⟨0, some [3]⟩]
  commitments := [⟨0, some [4]⟩, ⟨0, some [5]⟩]
  memo := ⟨0, some [6]⟩
  network_id := ⟨0, some [7]⟩
  value_balance := ⟨0, some [8]⟩

def wPub : OuterPublicVariables where
  inner_public_variables :=
    { ledger_digest := ⟨0, some [1]⟩
      kernel := wKernel
      encrypted_record_hashes := [⟨0, some [9]⟩, ⟨0, some [10]⟩]
      program_commitment := none
      local_data_root := none }
  inner_circuit_id := 11

def wPriv : OuterPrivateVariables where
  inner_snark_vk := 12
  inner_snark_proof := 13
  program_proofs := [⟨14, 15, 16⟩, ⟨17, 18, 19⟩]
  program_commitment := ⟨20, some [21]⟩
  program_randomness := 22
  local_data_root := ⟨23, some [24]⟩

/-- The trace of the successful run on the concrete instance. -/
def wTrace : List Event :=
  match execute_outer_circuit wNet wPub wPriv with
  | some (.ok tr) => tr
  | _ => []

/-- Public variables with two commitments but only one encrypted record
hash (all conversions succeed). -/
def mPub : OuterPublicVariables where
  inner_public_variables :=
    { ledger_digest := ⟨0, some [1]⟩
      kernel := wKernel
      encrypted_record_hashes := [⟨0, some [9]⟩]
      program_commitment := none
      local_data_root := none }
  inner_circuit_id := 11

/-- Public variables with two commitments, no encrypted record hashes,
and a ledger digest whose conversion to field elements fails. -/
def cPub : OuterPublicVariables where
  inner_public_variables :=
    { ledger_digest := ⟨0, none⟩
      kernel := wKernel
      encrypted_record_hashes := []
      program_commitment := none
      local_data_root := none }
  inner_circuit_id := 11

/-- Public variables with matching pair counts but a ledger digest whose
conversion to field elements fails. -/
def fPub : OuterPublicVariables where
  inner_public_variables :=
    { ledger_digest := ⟨0, none⟩
      kernel := wKernel
      encrypted_record_hashes := [⟨0, some [9]⟩, ⟨0, some [10]⟩]
      program_commitment := none
      local_data_root := none }
  inner_circuit_id := 11

def wCircuitA : ProgramCircuit where
  circuit_id := 1
  verifying_key := 31
  run := fun p q => .ok (p + q)
  run_blank := .ok 0

def wCircuitB : ProgramCircuit where
  circuit_id := 2
  verifying_key := 32
  run := fun _ _ => .error (.CircuitFailure 7)
  run_blank := .ok 1

def wProgram : Program where
  circuits := { circuits := [wCircuitA, wCircuitB], pathOf := fun id => id * 10 }

/-!
## Phase lemmas
-/

theorem allocInputFE_ok {s : Slot} {v : CFVal} {evts : List Event} {fes : List Nat}
    (h : allocInputFE s v = .ok (evts, fes)) :
    v.fe = some fes ∧ evts = fes.map (fun x => Event.alloc .pubInput s [x]) := by
  cases hfe : v.fe with
  | none => simp [allocInputFE, hfe] at h
  | some l =>
    simp only [allocInputFE, hfe, Except.ok.injEq, Prod.mk.injEq] at h
    obtain ⟨h1, h2⟩ := h
    subst h2
    exact ⟨rfl, h1.symm⟩

theorem allocInputFE_some {s : Slot} {v : CFVal} {l : List Nat} (hfe : v.fe = some l) :
    allocInputFE s v = .ok (l.map (fun x => Event.alloc .pubInput s [x]), l) := by
  simp [allocInputFE, hfe]

theorem allocInputFE_error_iff {s : Slot} {v : CFVal} {e : SynthesisError} :
    allocInputFE s v = .error e ↔ v.fe = none ∧ e = .AssignmentMissing := by
  cases hfe : v.fe <;> simp [allocInputFE, hfe, eq_comm]

theorem allocWitnessFE_ok {s : Slot} {v : CFVal} {evts : List Event} {fes : List Nat}
    (h : allocWitnessFE s v = .ok (evts, fes)) :
    v.fe = some fes ∧ evts = [Event.alloc .witness s fes] := by
  cases hfe : v.fe with
  | none => simp [allocWitnessFE, hfe] at h
  | some l =>
    simp only [allocWitnessFE, hfe, Except.ok.injEq, Prod.mk.injEq] at h
    obtain ⟨h1, h2⟩ := h
    subst h2
    exact ⟨rfl, h1.symm⟩

theorem allocWitnessFE_error_iff {s : Slot} {v : CFVal} {e : SynthesisError} :
    allocWitnessFE s v = .error e ↔ v.fe = none ∧ e = .AssignmentMissing := by
  cases hfe : v.fe <;> simp [allocWitnessFE, hfe, eq_comm]

theorem allocSerialNumbers_ok {sns : List CFVal} {i : Nat} {evts : List Event}
    {fes : List Nat} (h : allocSerialNumbers sns i = .ok (evts, fes)) :
    fes = (sns.map feOf).flatten ∧ allConvert sns = true := by
  induction sns generalizing i evts fes with
  | nil =>
    simp only [allocSerialNumbers, Except.ok.injEq, Prod.mk.injEq] at h
    simp [← h.2, allConvert]
  | cons sn rest ih =>
    simp only [allocSerialNumbers] at h
    cases h1 : allocInputFE (.serialNumber i) sn with
    | error e => simp [h1] at h
    | ok p =>
      obtain ⟨e1, f1⟩ := p
      cases h2 : allocSerialNumbers rest (i + 1) with
      | error e => simp [h1, h2] at h
      | ok q =>
        obtain ⟨e2, f2⟩ := q
        simp only [h1, h2, Except.ok.injEq, Prod.mk.injEq] at h
        obtain ⟨hfe, -⟩ := allocInputFE_ok h1
        obtain ⟨hf2, hconv⟩ := ih h2
        refine ⟨?_, ?_⟩
        · simp [← h.2, feOf, hfe, hf2]
        · simp [allConvert, hfe]
          simpa [allConvert] using hconv

theorem allocSerialNumbers_events {sns : List CFVal} {i : Nat} {evts : List Event}
    {fes : List Nat} (h : allocSerialNumbers sns i = .ok (evts, fes)) :
    ∀ ev ∈ evts, ∃ j x, ev = Event.alloc .pubInput (.serialNumber j) [x] := by
  induction sns generalizing i evts fes with
  | nil =>
    simp only [allocSerialNumbers, Except.ok.injEq, Prod.mk.injEq] at h
    simp [← h.1]
  | cons sn rest ih =>
    simp only [allocSerialNumbers] at h
    cases h1 : allocInputFE (.serialNumber i) sn with
    | error e => simp [h1] at h
    | ok p =>
      obtain ⟨e1, f1⟩ := p
      cases h2 : allocSerialNumbers rest (i + 1) with
      | error e => simp [h1, h2] at h
      | ok q =>
        obtain ⟨e2, f2⟩ := q
        simp only [h1, h2, Except.ok.injEq, Prod.mk.injEq] at h
        obtain ⟨-, hE⟩ := allocInputFE_ok h1
        intro ev hev
        rw [← h.1] at hev
        rcases List.mem_append.mp hev with hev | hev
        · rw [hE] at hev
          obtain ⟨x, -, rfl⟩ := List.mem_map.mp hev
          exact ⟨i, x, rfl⟩
        · exact ih h2 ev hev

theorem allocSerialNumbers_isOk {sns : List CFVal} {i : Nat}
    (hc : allConvert sns = true) :
    ∃ evts fes, allocSerialNumbers sns i = .ok (evts, fes) := by
  induction sns generalizing i with
  | nil => exact ⟨[], [], rfl⟩
  | cons sn rest ih =>
    simp only [allConvert, List.all_cons, Bool.and_eq_true] at hc
    obtain ⟨l, hl⟩ := Option.isSome_iff_exists.mp hc.1
    obtain ⟨evts, fes, hrest⟩ := @ih (i + 1) (by simpa [allConvert] using hc.2)
    exact ⟨l.map (fun x => Event.alloc .pubInput (.serialNumber i) [x]) ++ evts, l ++ fes,
      by simp [allocSerialNumbers, allocInputFE_some hl, hrest]⟩

theorem allocSerialNumbers_error_eq {sns : List CFVal} {i : Nat} {e : SynthesisError}
    (h : allocSerialNumbers sns i = .error e) : e = .AssignmentMissing := by
  induction sns generalizing i e with
  | nil => simp [allocSerialNumbers] at h
  | cons sn rest ih =>
    simp only [allocSerialNumbers] at h
    cases h1 : allocInputFE (.serialNumber i) sn with
    | error e1 =>
      simp only [h1] at h
      obtain ⟨-, rfl⟩ := allocInputFE_error_iff.mp h1
      simpa using h.symm
    | ok p =>
      obtain ⟨e1, f1⟩ := p
      cases h2 : allocSerialNumbers rest (i + 1) with
      | error e2 =>
        simp only [h1, h2] at h
        obtain rfl := ih h2
        simpa using h.symm
      | ok q =>
        obtain ⟨e2, f2⟩ := q
        simp [h1, h2] at h

theorem allocSerialNumbers_error_of_not {sns : List CFVal} {i : Nat}
    (hc : allConvert sns = false) :
    allocSerialNumbers sns i = .error .AssignmentMissing := by
  induction sns generalizing i with
  | nil => simp [allConvert] at hc
  | cons sn rest ih =>
    simp only [allConvert, List.all_cons, Bool.and_eq_false_iff] at hc
    rcases hc with hc | hc
    · have hfe : sn.fe = none := by
        cases hfe : sn.fe <;> simp [hfe] at hc ⊢
      simp [allocSerialNumbers, allocInputFE_error_iff.mpr ⟨hfe, rfl⟩]
    · cases hfe : sn.fe with
      | none => simp [allocSerialNumbers, allocInputFE_error_iff.mpr ⟨hfe, rfl⟩]
      | some l =>
        simp [allocSerialNumbers, allocInputFE_some hfe,
          @ih (i + 1) (by simpa [allConvert] using hc)]

theorem allocCommitmentPairs_ok {cms erhs : List CFVal} {i : Nat} {evts : List Event}
    {fes : List Nat}
    (h : allocCommitmentPairs cms erhs i = some (.ok (evts, fes))) :
    cms.length = erhs.length ∧
    fes = ((cms.zip erhs).map (fun p => feOf p.1 ++ feOf p.2)).flatten ∧
    allConvert cms = true ∧ allConvert erhs = true := by
  induction cms generalizing erhs i evts fes with
  | nil =>
    cases erhs with
    | nil =>
      simp only [allocCommitmentPairs, Option.some.injEq, Except.ok.injEq,
        Prod.mk.injEq] at h
      simp [← h.2, allConvert]
    | cons erh rest => simp [allocCommitmentPairs] at h
  | cons cm cms ih =>
    cases erhs with
    | nil => simp [allocCommitmentPairs] at h
    | cons erh erhs =>
      simp only [allocCommitmentPairs] at h
      cases h1 : allocInputFE (.commitment i) cm with
      | error e => simp [h1] at h
      | ok p =>
        obtain ⟨e1, f1⟩ := p
        cases h2 : allocInputFE (.encryptedRecordHash i) erh with
        | error e => simp [h1, h2] at h
        | ok q =>
          obtain ⟨e2, f2⟩ := q
          cases h3 : allocCommitmentPairs cms erhs (i + 1) with
          | none => simp [h1, h2, h3] at h
          | some r =>
            cases r with
            | error e => simp [h1, h2, h3] at h
            | ok s =>
              obtain ⟨e3, f3⟩ := s
              simp only [h1, h2, h3, Option.some.injEq, Except.ok.injEq,
                Prod.mk.injEq] at h
              obtain ⟨hfe1, -⟩ := allocInputFE_ok h1
              obtain ⟨hfe2, -⟩ := allocInputFE_ok h2
              obtain ⟨hlen, hf3, hc1, hc2⟩ := ih h3
              refine ⟨by simp [hlen], ?_, ?_, ?_⟩
              · simp [← h.2, feOf, hfe1, hfe2, hf3]
              · simp only [allConvert, List.all_cons, Bool.and_eq_true, hfe1]
                exact ⟨rfl, by simpa [allConvert] using hc1⟩
              · simp only [allConvert, List.all_cons, Bool.and_eq_true, hfe2]
                exact ⟨rfl, by simpa [allConvert] using hc2⟩

theorem allocCommitmentPairs_events {cms erhs : List CFVal} {i : Nat}
    {evts : List Event} {fes : List Nat}
    (h : allocCommitmentPairs cms erhs i = some (.ok (evts, fes))) :
    ∀ ev ∈ evts, (∃ j x, ev = Event.alloc .pubInput (.commitment j) [x]) ∨
      (∃ j x, ev = Event.alloc .pubInput (.encryptedRecordHash j) [x]) := by
  induction cms generalizing erhs i evts fes with
  | nil =>
    cases erhs with
    | nil =>
      simp only [allocCommitmentPairs, Option.some.injEq, Except.ok.injEq,
        Prod.mk.injEq] at h
      simp [← h.1]
    | cons erh rest => simp [allocCommitmentPairs] at h
  | cons cm cms ih =>
    cases erhs with
    | nil => simp [allocCommitmentPairs] at h
    | cons erh erhs =>
      simp only [allocCommitmentPairs] at h
      cases h1 : allocInputFE (.commitment i) cm with
      | error e => simp [h1] at h
      | ok p =>
        obtain ⟨e1, f1⟩ := p
        cases h2 : allocInputFE (.encryptedRecordHash i) erh with
        | error e => simp [h1, h2] at h
        | ok q =>
          obtain ⟨e2, f2⟩ := q
          cases h3 : allocCommitmentPairs cms erhs (i + 1) with
          | none => simp [h1, h2, h3] at h
          | some r =>
            cases r with
            | error e => simp [h1, h2, h3] at h
            | ok s =>
              obtain ⟨e3, f3⟩ := s
              simp only [h1, h2, h3, Option.some.injEq, Except.ok.injEq,
                Prod.mk.injEq] at h
              obtain ⟨-, hE1⟩ := allocInputFE_ok h1
              obtain ⟨-, hE2⟩ := allocInputFE_ok h2
              intro ev hev
              rw [← h.1] at hev
              rcases List.mem_append.mp hev with hev | hev
              · rcases List.mem_append.mp hev with hev | hev
                · rw [hE1] at hev
                  obtain ⟨x, -, rfl⟩ := List.mem_map.mp hev
                  exact Or.inl ⟨i, x, rfl⟩
                · rw [hE2] at hev
                  obtain ⟨x, -, rfl⟩ := List.mem_map.mp hev
                  exact Or.inr ⟨i, x, rfl⟩
              · exact ih h3 ev hev

theorem allocCommitmentPairs_ne_none {cms erhs : List CFVal} {i : Nat}
    (hlen : cms.length = erhs.length) :
    allocCommitmentPairs cms erhs i ≠ none := by
  induction cms generalizing erhs i with
  | nil =>
    cases erhs with
    | nil => simp [allocCommitmentPairs]
    | cons erh rest => simp at hlen
  | cons cm cms ih =>
    cases erhs with
    | nil => simp at hlen
    | cons erh erhs =>
      simp only [List.length_cons, add_left_inj] at hlen
      cases h1 : allocInputFE (.commitment i) cm with
      | error e => simp [allocCommitmentPairs, h1]
      | ok p =>
        obtain ⟨e1, f1⟩ := p
        cases h2 : allocInputFE (.encryptedRecordHash i) erh with
        | error e => simp [allocCommitmentPairs, h1, h2]
        | ok q =>
          obtain ⟨e2, f2⟩ := q
          cases h3 : allocCommitmentPairs cms erhs (i + 1) with
          | none => exact absurd h3 (ih hlen)
          | some r =>
            cases r with
            | error e => simp [allocCommitmentPairs, h1, h2, h3]
            | ok s => simp [allocCommitmentPairs, h1, h2, h3]

theorem allocCommitmentPairs_error_eq {cms erhs : List CFVal} {i : Nat}
    {e : SynthesisError}
    (h : allocCommitmentPairs cms erhs i = some (.error e)) :
    e = .AssignmentMissing := by
  induction cms generalizing erhs i e with
  | nil =>
    cases erhs with
    | nil => simp [allocCommitmentPairs] at h
    | cons erh rest => simp [allocCommitmentPairs] at h
  | cons cm cms ih =>
    cases erhs with
    | nil => simp [allocCommitmentPairs] at h
    | cons erh erhs =>
      simp only [allocCommitmentPairs] at h
      cases h1 : allocInputFE (.commitment i) cm with
      | error e1 =>
        simp only [h1, Option.some.injEq] at h
        obtain ⟨-, rfl⟩ := allocInputFE_error_iff.mp h1
        simpa using h.symm
      | ok p =>
        obtain ⟨e1, f1⟩ := p
        cases h2 : allocInputFE (.encryptedRecordHash i) erh with
        | error e2 =>
          simp only [h1, h2, Option.some.injEq] at h
          obtain ⟨-, rfl⟩ := allocInputFE_error_iff.mp h2
          simpa using h.symm
        | ok q =>
          obtain ⟨e2, f2⟩ := q
          cases h3 : allocCommitmentPairs cms erhs (i + 1) with
          | none => simp [h1, h2, h3] at h
          | some r =>
            cases r with
            | error e3 =>
              simp only [h1, h2, h3, Option.some.injEq] at h
              obtain rfl := ih h3
              simpa using h.symm
            | ok s => simp [h1, h2, h3] at h

theorem allocCommitmentPairs_none_of_mismatch {cms erhs : List CFVal} {i : Nat}
    (hc1 : allConvert cms = true) (hc2 : allConvert erhs = true)
    (hlen : cms.length ≠ erhs.length) :
    allocCommitmentPairs cms erhs i = none := by
  induction cms generalizing erhs i with
  | nil =>
    cases erhs with
    | nil => simp at hlen
    | cons erh rest => simp [allocCommitmentPairs]
  | cons cm cms ih =>
    cases erhs with
    | nil => simp [allocCommitmentPairs]
    | cons erh erhs =>
      simp only [allConvert, List.all_cons, Bool.and_eq_true] at hc1 hc2
      obtain ⟨l1, hl1⟩ := Option.isSome_iff_exists.mp hc1.1
      obtain ⟨l2, hl2⟩ := Option.isSome_iff_exists.mp hc2.1
      have hlen2 : cms.length ≠ erhs.length := by
        intro hcontra
        exact hlen (by simp [hcontra])
      simp [allocCommitmentPairs, allocInputFE_some hl1, allocInputFE_some hl2,
        ih (by simpa [allConvert] using hc1.2) (by simpa [allConvert] using hc2.2) hlen2]

theorem allocCommitmentPairs_error_of_not {cms erhs : List CFVal} {i : Nat}
    (hlen : cms.length = erhs.length)
    (hc : allConvert cms = false ∨ allConvert erhs = false) :
    allocCommitmentPairs cms erhs i = some (.error .AssignmentMissing) := by
  induction cms generalizing erhs i with
  | nil =>
    cases erhs with
    | nil => simp [allConvert] at hc
    | cons erh rest => simp at hlen
  | cons cm cms ih =>
    cases erhs with
    | nil => simp at hlen
    | cons erh erhs =>
      simp only [List.length_cons, add_left_inj] at hlen
      cases hfe1 : cm.fe with
      | none =>
        simp [allocCommitmentPairs, allocInputFE_error_iff.mpr ⟨hfe1, rfl⟩]
      | some l1 =>
        cases hfe2 : erh.fe with
        | none =>
          simp [allocCommitmentPairs, allocInputFE_some hfe1,
            allocInputFE_error_iff.mpr ⟨hfe2, rfl⟩]
        | some l2 =>
          have hc2 : allConvert cms = false ∨ allConvert erhs = false := by
            rcases hc with hc | hc
            · exact Or.inl (by
                simpa [allConvert, hfe1] using hc)
            · exact Or.inr (by
                simpa [allConvert, hfe2] using hc)
          simp [allocCommitmentPairs, allocInputFE_some hfe1,
            allocInputFE_some hfe2, ih hlen hc2]

theorem processRecords_ids (net : Network) (l : List Nat) (execs : List Execution)
    (i : Nat) :
    (processRecords net l execs i).2 = execs.map (claimedProgramIdBytes net) := by
  induction execs generalizing i with
  | nil => simp [processRecords]
  | cons e rest ih => simp [processRecords, ih]

theorem processRecords_events (net : Network) (l : List Nat)
    (execs : List Execution) (i : Nat) :
    ∀ ev ∈ (processRecords net l execs i).1, ∃ j e, ev ∈ recordEvents l j e := by
  induction execs generalizing i with
  | nil => simp [processRecords]
  | cons e rest ih =>
    intro ev hev
    simp only [processRecords] at hev
    rcases List.mem_append.mp hev with hev | hev
    · exact ⟨i, e, hev⟩
    · exact ih (i + 1) ev hev

theorem processRecords_get (net : Network) (l : List Nat)
    (execs : List Execution) (i : Nat) :
    ∀ k e, execs[k]? = some e →
      Event.alloc .const (.position (i + k)) [i + k] ∈ (processRecords net l execs i).1 ∧
      Event.checkProgramVerify e.verifying_key ((i + k) :: l) e.proof ∈
        (processRecords net l execs i).1 := by
  induction execs generalizing i with
  | nil => intro k e h; simp at h
  | cons x rest ih =>
    intro k e h
    cases k with
    | zero =>
      simp only [List.getElem?_cons_zero, Option.some.injEq] at h
      subst h
      constructor <;> simp [processRecords, recordEvents]
    | succ k =>
      simp only [List.getElem?_cons_succ] at h
      obtain ⟨h1, h2⟩ := ih (i + 1) k e h
      have harith : i + 1 + k = i + (k + 1) := by omega
      rw [harith] at h1 h2
      exact ⟨by simp [processRecords, h1], by simp [processRecords, h2]⟩

theorem processRecords_verify_count (net : Network) (l : List Nat)
    (execs : List Execution) (i : Nat) :
    ((processRecords net l execs i).1.filter Event.isProgramVerify).length =
      execs.length := by
  induction execs generalizing i with
  | nil => simp [processRecords]
  | cons e rest ih =>
    simp [processRecords, List.filter_append, recordEvents, Event.isProgramVerify, ih]

theorem recordEvents_cases {l : List Nat} {j : Nat} {e : Execution} {ev : Event}
    (h : ev ∈ recordEvents l j e) :
    ev = Event.alloc .witness (.programProof j) [e.proof] ∨
    ev = Event.alloc .witness (.programVk j) [e.verifying_key] ∨
    ev = Event.alloc .witness (.merklePath j) [e.program_path] ∨
    ev = Event.alloc .const (.position j) [j] ∨
    ev = Event.checkProgramVerify e.verifying_key (j :: l) e.proof := by
  simpa [recordEvents] using h

theorem execute_ok_elim {net : Network} {pub : OuterPublicVariables}
    {priv : OuterPrivateVariables} {tr : List Event}
    (h : execute_outer_circuit net pub priv = some (.ok tr)) :
    ∃ snE snF cmE cmF,
      allocSerialNumbers pub.inner_public_variables.kernel.serial_numbers 0 =
        .ok (snE, snF) ∧
      allocCommitmentPairs pub.inner_public_variables.kernel.commitments
        pub.inner_public_variables.encrypted_record_hashes 0 = some (.ok (cmE, cmF)) ∧
      pub.inner_public_variables.ledger_digest.fe =
        some (feOf pub.inner_public_variables.ledger_digest) ∧
      pub.inner_public_variables.kernel.memo.fe =
        some (feOf pub.inner_public_variables.kernel.memo) ∧
      pub.inner_public_variables.kernel.network_id.fe =
        some (feOf pub.inner_public_variables.kernel.network_id) ∧
      pub.inner_public_variables.kernel.value_balance.fe =
        some (feOf pub.inner_public_variables.kernel.value_balance) ∧
      priv.program_commitment.fe = some (feOf priv.program_commitment) ∧
      priv.local_data_root.fe = some (feOf priv.local_data_root) ∧
      tr = paramEvents ++
        (feOf pub.inner_public_variables.ledger_digest).map
          (fun x => Event.alloc .pubInput .ledgerDigest [x]) ++
        snE ++ cmE ++
        (feOf pub.inner_public_variables.kernel.memo).map
          (fun x => Event.alloc .pubInput .memo [x]) ++
        (feOf pub.inner_public_variables.kernel.network_id).map
          (fun x => Event.alloc .pubInput .networkId [x]) ++
        (feOf pub.inner_public_variables.kernel.value_balance).map
          (fun x => Event.alloc .pubInput .valueBalance [x]) ++
        [Event.alloc .witness .programCommitment (feOf priv.program_commitment)] ++
        [Event.alloc .witness .localDataRootInner (feOf priv.local_data_root)] ++
        [Event.alloc .witness .localDataRootProgram (feOf priv.local_data_root)] ++
        [Event.enforceEqualBits (net.innerBits (feOf priv.local_data_root))
          (net.programBits (feOf priv.local_data_root))] ++
        [Event.alloc .witness .innerVk [priv.inner_snark_vk],
         Event.alloc .witness .innerProof [priv.inner_snark_proof],
         Event.checkInnerVerify priv.inner_snark_vk
           (feOf pub.inner_public_variables.ledger_digest ++ snF ++ cmF ++
            feOf priv.program_commitment ++
            feOf pub.inner_public_variables.kernel.memo ++
            feOf pub.inner_public_variables.kernel.network_id ++
            feOf priv.local_data_root ++
            feOf pub.inner_public_variables.kernel.value_balance)
           priv.inner_snark_proof] ++
        (processRecords net (feOf priv.local_data_root)
          (priv.program_proofs.take net.NUM_TOTAL_RECORDS) 0).1 ++
        commitmentCheckEvents net priv
          ((processRecords net (feOf priv.local_data_root)
            (priv.program_proofs.take net.NUM_TOTAL_RECORDS) 0).2) ++
        innerIdCheckEvents net pub priv := by
  unfold execute_outer_circuit at h
  split at h
  · exact absurd h (by simp)
  rename_i ldE ldF hld
  split at h
  · exact absurd h (by simp)
  rename_i snE snF hsn
  split at h
  · exact absurd h (by simp)
  · exact absurd h (by simp)
  rename_i cmE cmF hcm
  split at h
  · exact absurd h (by simp)
  rename_i mmE mmF hmm
  split at h
  · exact absurd h (by simp)
  rename_i niE niF hni
  split at h
  · exact absurd h (by simp)
  rename_i vbE vbF hvb
  split at h
  · exact absurd h (by simp)
  rename_i pcE pcF hpc
  split at h
  · exact absurd h (by simp)
  rename_i ldiE ldiF hldi
  split at h
  · exact absurd h (by simp)
  rename_i ldpE ldpF hldp
  simp only [Option.some.injEq, Except.ok.injEq] at h
  subst h
  obtain ⟨hld1, hld2⟩ := allocInputFE_ok hld
  obtain ⟨hmm1, hmm2⟩ := allocInputFE_ok hmm
  obtain ⟨hni1, hni2⟩ := allocInputFE_ok hni
  obtain ⟨hvb1, hvb2⟩ := allocInputFE_ok hvb
  obtain ⟨hpc1, hpc2⟩ := allocWitnessFE_ok hpc
  obtain ⟨hldi1, hldi2⟩ := allocWitnessFE_ok hldi
  obtain ⟨hldp1, hldp2⟩ := allocWitnessFE_ok hldp
  have eld : feOf pub.inner_public_variables.ledger_digest = ldF := by
    simp [feOf, hld1]
  have emm : feOf pub.inner_public_variables.kernel.memo = mmF := by
    simp [feOf, hmm1]
  have eni : feOf pub.inner_public_variables.kernel.network_id = niF := by
    simp [feOf, hni1]
  have evb : feOf pub.inner_public_variables.kernel.value_balance = vbF := by
    simp [feOf, hvb1]
  have epc : feOf priv.program_commitment = pcF := by
    simp [feOf, hpc1]
  have eldi : feOf priv.local_data_root = ldiF := by
    simp [feOf, hldi1]
  have eldp : feOf priv.local_data_root = ldpF := by
    simp [feOf, hldp1]
  subst eld emm eni evb epc eldi
  obtain rfl : ldpF = feOf priv.local_data_root := eldp.symm
  subst hld2 hmm2 hni2 hvb2 hpc2 hldi2 hldp2
  exact ⟨snE, snF, cmE, cmF, hsn, hcm, hld1, hmm1, hni1, hvb1, hpc1, hldi1, rfl⟩

theorem allocSerialNumbers_error_allConvert {sns : List CFVal} {i : Nat}
    {e : SynthesisError} (h : allocSerialNumbers sns i = .error e) :
    allConvert sns = false := by
  cases hc : allConvert sns
  · rfl
  · obtain ⟨evts, fes, hok⟩ := @allocSerialNumbers_isOk _ i hc
    rw [hok] at h
    simp at h

theorem allocCommitmentPairs_error_allConvert {cms erhs : List CFVal} {i : Nat}
    {e : SynthesisError}
    (h : allocCommitmentPairs cms erhs i = some (.error e)) :
    allConvert cms = false ∨ allConvert erhs = false := by
  induction cms generalizing erhs i e with
  | nil =>
    cases erhs with
    | nil => simp [allocCommitmentPairs] at h
    | cons x xs => simp [allocCommitmentPairs] at h
  | cons cm cms ih =>
    cases erhs with
    | nil => simp [allocCommitmentPairs] at h
    | cons erh erhs =>
      simp only [allocCommitmentPairs] at h
      cases h1 : allocInputFE (.commitment i) cm with
      | error e1 =>
        obtain ⟨hfe, -⟩ := allocInputFE_error_iff.mp h1
        exact Or.inl (by simp [allConvert, hfe])
      | ok p =>
        obtain ⟨e1, f1⟩ := p
        cases h2 : allocInputFE (.encryptedRecordHash i) erh with
        | error e2 =>
          obtain ⟨hfe, -⟩ := allocInputFE_error_iff.mp h2
          exact Or.inr (by simp [allConvert, hfe])
        | ok q =>
          obtain ⟨e2, f2⟩ := q
          cases h3 : allocCommitmentPairs cms erhs (i + 1) with
          | none => simp [h1, h2, h3] at h
          | some r =>
            cases r with
            | error e3 =>
              rcases ih h3 with hc | hc
              · refine Or.inl ?_
                simp only [allConvert] at hc ⊢
                simp [hc]
              · refine Or.inr ?_
                simp only [allConvert] at hc ⊢
                simp [hc]
            | ok s => simp [h1, h2, h3] at h

theorem execute_error_eq {net : Network} {pub : OuterPublicVariables}
    {priv : OuterPrivateVariables} {e : SynthesisError}
    (h : execute_outer_circuit net pub priv = some (.error e)) :
    e = .AssignmentMissing := by
  unfold execute_outer_circuit at h
  split at h
  · rename_i e1 h1
    obtain ⟨-, rfl⟩ := allocInputFE_error_iff.mp h1
    simpa using h.symm
  rename_i ldE ldF hld
  split at h
  · rename_i e1 h1
    obtain rfl := allocSerialNumbers_error_eq h1
    simpa using h.symm
  rename_i snE snF hsn
  split at h
  · exact absurd h (by simp)
  · rename_i e1 h1
    obtain rfl := allocCommitmentPairs_error_eq h1
    simpa using h.symm
  rename_i cmE cmF hcm
  split at h
  · rename_i e1 h1
    obtain ⟨-, rfl⟩ := allocInputFE_error_iff.mp h1
    simpa using h.symm
  rename_i mmE mmF hmm
  split at h
  · rename_i e1 h1
    obtain ⟨-, rfl⟩ := allocInputFE_error_iff.mp h1
    simpa using h.symm
  rename_i niE niF hni
  split at h
  · rename_i e1 h1
    obtain ⟨-, rfl⟩ := allocInputFE_error_iff.mp h1
    simpa using h.symm
  rename_i vbE vbF hvb
  split at h
  · rename_i e1 h1
    obtain ⟨-, rfl⟩ := allocWitnessFE_error_iff.mp h1
    simpa using h.symm
  rename_i pcE pcF hpc
  split at h
  · rename_i e1 h1
    obtain ⟨-, rfl⟩ := allocWitnessFE_error_iff.mp h1
    simpa using h.symm
  rename_i ldiE ldiF hldi
  split at h
  · rename_i e1 h1
    obtain ⟨-, rfl⟩ := allocWitnessFE_error_iff.mp h1
    simpa using h.symm
  rename_i ldpE ldpF hldp
  exact absurd h (by simp)

theorem execute_ne_none {net : Network} {pub : OuterPublicVariables}
    {priv : OuterPrivateVariables}
    (hlen : pub.inner_public_variables.kernel.commitments.length =
      pub.inner_public_variables.encrypted_record_hashes.length) :
    execute_outer_circuit net pub priv ≠ none := by
  intro h
  unfold execute_outer_circuit at h
  split at h
  · simp at h
  split at h
  · simp at h
  split at h
  · rename_i h1
    exact allocCommitmentPairs_ne_none hlen h1
  · simp at h
  split at h
  · simp at h
  split at h
  · simp at h
  split at h
  · simp at h
  split at h
  · simp at h
  split at h
  · simp at h
  split at h
  · simp at h
  simp at h

theorem execute_ok_not_conversionFails {net : Network} {pub : OuterPublicVariables}
    {priv : OuterPrivateVariables} {tr : List Event}
    (h : execute_outer_circuit net pub priv = some (.ok tr)) :
    conversionFails pub priv = false := by
  obtain ⟨snE, snF, cmE, cmF, hsn, hcm, hld, hmm, hni, hvb, hpc, hldr, -⟩ :=
    execute_ok_elim h
  obtain ⟨-, hsnc⟩ := allocSerialNumbers_ok hsn
  obtain ⟨-, -, hcmc, herhc⟩ := allocCommitmentPairs_ok hcm
  simp [conversionFails, hld, hmm, hni, hvb, hpc, hldr, hsnc, herhc, hcmc]

theorem execute_no_error_of_not_conversionFails {net : Network}
    {pub : OuterPublicVariables} {priv : OuterPrivateVariables} {e : SynthesisError}
    (hcf : conversionFails pub priv = false) :
    execute_outer_circuit net pub priv ≠ some (.error e) := by
  simp only [conversionFails, Bool.not_eq_false', Bool.and_eq_true] at hcf
  obtain ⟨⟨⟨⟨⟨⟨⟨⟨hld, hsn⟩, hcm⟩, herh⟩, hmm⟩, hni⟩, hvb⟩, hpc⟩, hldr⟩ := hcf
  intro h
  unfold execute_outer_circuit at h
  split at h
  · rename_i e1 h1
    obtain ⟨hfe, -⟩ := allocInputFE_error_iff.mp h1
    simp [hfe] at hld
  split at h
  · rename_i e1 h1
    rw [allocSerialNumbers_error_allConvert h1] at hsn
    simp at hsn
  split at h
  · simp at h
  · rename_i e1 h1
    rcases allocCommitmentPairs_error_allConvert h1 with hbad | hbad
    · rw [hbad] at hcm; simp at hcm
    · rw [hbad] at herh; simp at herh
  split at h
  · rename_i e1 h1
    obtain ⟨hfe, -⟩ := allocInputFE_error_iff.mp h1
    simp [hfe] at hmm
  split at h
  · rename_i e1 h1
    obtain ⟨hfe, -⟩ := allocInputFE_error_iff.mp h1
    simp [hfe] at hni
  split at h
  · rename_i e1 h1
    obtain ⟨hfe, -⟩ := allocInputFE_error_iff.mp h1
    simp [hfe] at hvb
  split at h
  · rename_i e1 h1
    obtain ⟨hfe, -⟩ := allocWitnessFE_error_iff.mp h1
    simp [hfe] at hpc
  split at h
  · rename_i e1 h1
    obtain ⟨hfe, -⟩ := allocWitnessFE_error_iff.mp h1
    simp [hfe] at hldr
  split at h
  · rename_i e1 h1
    obtain ⟨hfe, -⟩ := allocWitnessFE_error_iff.mp h1
    simp [hfe] at hldr
  simp at h

theorem allocSerialNumbers_get {sns : List CFVal} {i : Nat} {evts : List Event}
    {fes : List Nat} (h : allocSerialNumbers sns i = .ok (evts, fes)) :
    ∀ k sn, sns[k]? = some sn → ∀ x ∈ feOf sn,
      Event.alloc .pubInput (.serialNumber (i + k)) [x] ∈ evts := by
  induction sns generalizing i evts fes with
  | nil => intro k sn hk; simp at hk
  | cons s rest ih =>
    simp only [allocSerialNumbers] at h
    cases h1 : allocInputFE (.serialNumber i) s with
    | error e => simp [h1] at h
    | ok p =>
      obtain ⟨e1, f1⟩ := p
      cases h2 : allocSerialNumbers rest (i + 1) with
      | error e => simp [h1, h2] at h
      | ok q =>
        obtain ⟨e2, f2⟩ := q
        simp only [h1, h2, Except.ok.injEq, Prod.mk.injEq] at h
        intro k sn hk x hx
        rw [← h.1]
        cases k with
        | zero =>
          simp only [List.getElem?_cons_zero, Option.some.injEq] at hk
          subst hk
          obtain ⟨hfe, hE⟩ := allocInputFE_ok h1
          refine List.mem_append.mpr (Or.inl ?_)
          rw [hE]
          refine List.mem_map.mpr ⟨x, ?_, by simp⟩
          simpa [feOf, hfe] using hx
        | succ k =>
          simp only [List.getElem?_cons_succ] at hk
          have hmem := ih h2 k sn hk x hx
          have harith : i + 1 + k = i + (k + 1) := by omega
          rw [harith] at hmem
          exact List.mem_append.mpr (Or.inr hmem)

theorem allocCommitmentPairs_get {cms erhs : List CFVal} {i : Nat}
    {evts : List Event} {fes : List Nat}
    (h : allocCommitmentPairs cms erhs i = some (.ok (evts, fes))) :
    ∀ k cm erh, cms[k]? = some cm → erhs[k]? = some erh →
      (∀ x ∈ feOf cm, Event.alloc .pubInput (.commitment (i + k)) [x] ∈ evts) ∧
      (∀ x ∈ feOf erh, Event.alloc .pubInput (.encryptedRecordHash (i + k)) [x] ∈ evts) := by
  induction cms generalizing erhs i evts fes with
  | nil =>
    intro k cm erh hk
    simp at hk
  | cons c cs ih =>
    cases erhs with
    | nil => simp [allocCommitmentPairs] at h
    | cons r rs =>
      simp only [allocCommitmentPairs] at h
      cases h1 : allocInputFE (.commitment i) c with
      | error e => simp [h1] at h
      | ok p =>
        obtain ⟨e1, f1⟩ := p
        cases h2 : allocInputFE (.encryptedRecordHash i) r with
        | error e => simp [h1, h2] at h
        | ok q =>
          obtain ⟨e2, f2⟩ := q
          cases h3 : allocCommitmentPairs cs rs (i + 1) with
          | none => simp [h1, h2, h3] at h
          | some res =>
            cases res with
            | error e => simp [h1, h2, h3] at h
            | ok s =>
              obtain ⟨e3, f3⟩ := s
              simp only [h1, h2, h3, Option.some.injEq, Except.ok.injEq,
                Prod.mk.injEq] at h
              intro k cm erh hk hrk
              rw [← h.1]
              cases k with
              | zero =>
                simp only [List.getElem?_cons_zero, Option.some.injEq] at hk hrk
                subst hk
                subst hrk
                obtain ⟨hfe1, hE1⟩ := allocInputFE_ok h1
                obtain ⟨hfe2, hE2⟩ := allocInputFE_ok h2
                constructor
                · intro x hx
                  refine List.mem_append.mpr (Or.inl (List.mem_append.mpr (Or.inl ?_)))
                  rw [hE1]
                  refine List.mem_map.mpr ⟨x, ?_, by simp⟩
                  simpa [feOf, hfe1] using hx
                · intro x hx
                  refine List.mem_append.mpr (Or.inl (List.mem_append.mpr (Or.inr ?_)))
                  rw [hE2]
                  refine List.mem_map.mpr ⟨x, ?_, by simp⟩
                  simpa [feOf, hfe2] using hx
              | succ k =>
                simp only [List.getElem?_cons_succ] at hk hrk
                obtain ⟨hc, hr⟩ := ih h3 k cm erh hk hrk
                have harith : i + 1 + k = i + (k + 1) := by omega
                rw [harith] at hc hr
                exact ⟨fun x hx => List.mem_append.mpr (Or.inr (hc x hx)),
                  fun x hx => List.mem_append.mpr (Or.inr (hr x hx))⟩

theorem filter_enforce_of_allocs {l : List Event}
    (h : ∀ ev ∈ l, ∃ k s pl, ev = Event.alloc k s pl) :
    l.filter Event.isEnforce = [] := by
  refine List.filter_eq_nil_iff.mpr ?_
  intro ev hev
  obtain ⟨k, s, pl, rfl⟩ := h ev hev
  simp [Event.isEnforce]

theorem filter_verify_of_allocs {l : List Event}
    (h : ∀ ev ∈ l, ∃ k s pl, ev = Event.alloc k s pl) :
    l.filter Event.isProgramVerify = [] := by
  refine List.filter_eq_nil_iff.mpr ?_
  intro ev hev
  obtain ⟨k, s, pl, rfl⟩ := h ev hev
  simp [Event.isProgramVerify]

theorem map_alloc_allocs (k : AllocKind) (s : Slot) (l : List Nat) :
    ∀ ev ∈ l.map (fun x => Event.alloc k s [x]), ∃ k2 s2 pl, ev = Event.alloc k2 s2 pl := by
  intro ev hev
  obtain ⟨x, -, rfl⟩ := List.mem_map.mp hev
  exact ⟨k, s, [x], rfl⟩

theorem processRecords_filter_enforce (net : Network) (l : List Nat)
    (execs : List Execution) (i : Nat) :
    (processRecords net l execs i).1.filter Event.isEnforce = [] := by
  refine List.filter_eq_nil_iff.mpr ?_
  intro ev hev
  obtain ⟨j, e, hev2⟩ := processRecords_events net l execs i ev hev
  rcases recordEvents_cases hev2 with rfl | rfl | rfl | rfl | rfl <;>
    simp [Event.isEnforce]

theorem execute_ok_event_cases {net : Network} {pub : OuterPublicVariables}
    {priv : OuterPrivateVariables} {tr : List Event}
    (h : execute_outer_circuit net pub priv = some (.ok tr)) :
    ∀ ev ∈ tr,
      ev ∈ paramEvents ∨
      (∃ x, ev = Event.alloc .pubInput .ledgerDigest [x]) ∨
      (∃ j x, ev = Event.alloc .pubInput (.serialNumber j) [x]) ∨
      (∃ j x, ev = Event.alloc .pubInput (.commitment j) [x]) ∨
      (∃ j x, ev = Event.alloc .pubInput (.encryptedRecordHash j) [x]) ∨
      (∃ x, ev = Event.alloc .pubInput .memo [x]) ∨
      (∃ x, ev = Event.alloc .pubInput .networkId [x]) ∨
      (∃ x, ev = Event.alloc .pubInput .valueBalance [x]) ∨
      ev = Event.alloc .witness .programCommitment (feOf priv.program_commitment) ∨
      ev = Event.alloc .witness .localDataRootInner (feOf priv.local_data_root) ∨
      ev = Event.alloc .witness .localDataRootProgram (feOf priv.local_data_root) ∨
      ev = Event.enforceEqualBits (net.innerBits (feOf priv.local_data_root))
        (net.programBits (feOf priv.local_data_root)) ∨
      ev = Event.alloc .witness .innerVk [priv.inner_snark_vk] ∨
      ev = Event.alloc .witness .innerProof [priv.inner_snark_proof] ∨
      (∃ input, ev = Event.checkInnerVerify priv.inner_snark_vk input
        priv.inner_snark_proof) ∨
      (∃ j e, ev ∈ recordEvents (feOf priv.local_data_root) j e) ∨
      ev = Event.alloc .witness .commitmentRandomness [priv.program_randomness] ∨
      ev = Event.alloc .witness .commitmentOutput [priv.program_commitment.raw] ∨
      (∃ a, ev = Event.enforceEqualComm a priv.program_commitment.raw) ∨
      ev = Event.alloc .pubInput .innerCircuitId [pub.inner_circuit_id] ∨
      (∃ a, ev = Event.enforceEqualDigest a pub.inner_circuit_id) := by
  obtain ⟨snE, snF, cmE, cmF, hsn, hcm, -, -, -, -, -, -, htr⟩ := execute_ok_elim h
  subst htr
  intro ev hev
  simp only [List.mem_append] at hev
  rcases hev with (((((((((((((hev | hev) | hev) | hev) | hev) | hev) | hev) |
    hev) | hev) | hev) | hev) | hev) | hev) | hev) | hev
  · exact Or.inl hev
  · obtain ⟨x, -, rfl⟩ := List.mem_map.mp hev
    exact Or.inr (Or.inl ⟨x, rfl⟩)
  · obtain ⟨j, x, rfl⟩ := allocSerialNumbers_events hsn ev hev
    exact Or.inr (Or.inr (Or.inl ⟨j, x, rfl⟩))
  · rcases allocCommitmentPairs_events hcm ev hev with ⟨j, x, rfl⟩ | ⟨j, x, rfl⟩
    · exact Or.inr (Or.inr (Or.inr (Or.inl ⟨j, x, rfl⟩)))
    · exact Or.inr (Or.inr (Or.inr (Or.inr (Or.inl ⟨j, x, rfl⟩))))
  · obtain ⟨x, -, rfl⟩ := List.mem_map.mp hev
    refine Or.inr (Or.inr (Or.inr (Or.inr (Or.inr (Or.inl ⟨x, rfl⟩)))))
  · obtain ⟨x, -, rfl⟩ := List.mem_map.mp hev
    refine Or.inr (Or.inr (Or.inr (Or.inr (Or.inr (Or.inr (Or.inl ⟨x, rfl⟩))))))
  · obtain ⟨x, -, rfl⟩ := List.mem_map.mp hev
    refine Or.inr (Or.inr (Or.inr (Or.inr (Or.inr (Or.inr (Or.inr (Or.inl
      ⟨x, rfl⟩)))))))
  · simp only [List.mem_singleton] at hev
    subst hev
    refine Or.inr (Or.inr (Or.inr (Or.inr (Or.inr (Or.inr (Or.inr (Or.inr
      (Or.inl rfl))))))))
  · simp only [List.mem_singleton] at hev
    subst hev
    refine Or.inr (Or.inr (Or.inr (Or.inr (Or.inr (Or.inr (Or.inr (Or.inr
      (Or.inr (Or.inl rfl)))))))))
  · simp only [List.mem_singleton] at hev
    subst hev
    refine Or.inr (Or.inr (Or.inr (Or.inr (Or.inr (Or.inr (Or.inr (Or.inr
      (Or.inr (Or.inr (Or.inl rfl))))))))))
  · simp only [List.mem_singleton] at hev
    subst hev
    refine Or.inr (Or.inr (Or.inr (Or.inr (Or.inr (Or.inr (Or.inr (Or.inr
      (Or.inr (Or.inr (Or.inr (Or.inl rfl)))))))))))
  · simp only [List.mem_cons, List.not_mem_nil, or_false] at hev
    rcases hev with rfl | rfl | rfl
    · refine Or.inr (Or.inr (Or.inr (Or.inr (Or.inr (Or.inr (Or.inr (Or.inr
        (Or.inr (Or.inr (Or.inr (Or.inr (Or.inl rfl))))))))))))
    · refine Or.inr (Or.inr (Or.inr (Or.inr (Or.inr (Or.inr (Or.inr (Or.inr
        (Or.inr (Or.inr (Or.inr (Or.inr (Or.inr (Or.inl rfl)))))))))))))
    · refine Or.inr (Or.inr (Or.inr (Or.inr (Or.inr (Or.inr (Or.inr (Or.inr
        (Or.inr (Or.inr (Or.inr (Or.inr (Or.inr (Or.inr (Or.inl
        ⟨_, rfl⟩))))))))))))))
  · obtain ⟨j, e, hev2⟩ := processRecords_events net (feOf priv.local_data_root)
      (priv.program_proofs.take net.NUM_TOTAL_RECORDS) 0 ev hev
    refine Or.inr (Or.inr (Or.inr (Or.inr (Or.inr (Or.inr (Or.inr (Or.inr
      (Or.inr (Or.inr (Or.inr (Or.inr (Or.inr (Or.inr (Or.inr (Or.inl
      ⟨j, e, hev2⟩)))))))))))))))
  · simp only [commitmentCheckEvents, List.mem_cons, List.not_mem_nil, or_false] at hev
    rcases hev with rfl | rfl | rfl
    · refine Or.inr (Or.inr (Or.inr (Or.inr (Or.inr (Or.inr (Or.inr (Or.inr
        (Or.inr (Or.inr (Or.inr (Or.inr (Or.inr (Or.inr (Or.inr (Or.inr
        (Or.inl rfl))))))))))))))))
    · refine Or.inr (Or.inr (Or.inr (Or.inr (Or.inr (Or.inr (Or.inr (Or.inr
        (Or.inr (Or.inr (Or.inr (Or.inr (Or.inr (Or.inr (Or.inr (Or.inr
        (Or.inr (Or.inl rfl)))))))))))))))))
    · refine Or.inr (Or.inr (Or.inr (Or.inr (Or.inr (Or.inr (Or.inr (Or.inr
        (Or.inr (Or.inr (Or.inr (Or.inr (Or.inr (Or.inr (Or.inr (Or.inr
        (Or.inr (Or.inr (Or.inl ⟨_, rfl⟩))))))))))))))))))
  · simp only [innerIdCheckEvents, List.mem_cons, List.not_mem_nil, or_false] at hev
    rcases hev with rfl | rfl
    · refine Or.inr (Or.inr (Or.inr (Or.inr (Or.inr (Or.inr (Or.inr (Or.inr
        (Or.inr (Or.inr (Or.inr (Or.inr (Or.inr (Or.inr (Or.inr (Or.inr
        (Or.inr (Or.inr (Or.inr (Or.inl rfl)))))))))))))))))))
    · refine Or.inr (Or.inr (Or.inr (Or.inr (Or.inr (Or.inr (Or.inr (Or.inr
        (Or.inr (Or.inr (Or.inr (Or.inr (Or.inr (Or.inr (Or.inr (Or.inr
        (Or.inr (Or.inr (Or.inr (Or.inr (⟨_, rfl⟩))))))))))))))))))))

theorem execute_ok_alloc_kind {net : Network} {pub : OuterPublicVariables}
    {priv : OuterPrivateVariables} {tr : List Event}
    (h : execute_outer_circuit net pub priv = some (.ok tr)) :
    ∀ kind s pl, Event.alloc kind s pl ∈ tr →
      (s = .programCommitment ∨ s = .localDataRootInner ∨ s = .localDataRootProgram) →
      kind = .witness := by
  intro kind s pl hev hs
  rcases hs with rfl | rfl | rfl <;>
  rcases execute_ok_event_cases h _ hev with hc | hc | hc | hc | hc | hc | hc |
    hc | hc | hc | hc | hc | hc | hc | hc | hc | hc | hc | hc | hc | hc <;>
  simp [paramEvents, recordEvents] at hc <;> exact hc.1

theorem execute_ok_pub_payload {net : Network} {pub : OuterPublicVariables}
    {priv : OuterPrivateVariables} {tr : List Event}
    (h : execute_outer_circuit net pub priv = some (.ok tr)) :
    ∀ s pl, Event.alloc .pubInput s pl ∈ tr → pl.length = 1 := by
  intro s pl hev
  rcases execute_ok_event_cases h _ hev with hc | hc | hc | hc | hc | hc | hc |
    hc | hc | hc | hc | hc | hc | hc | hc | hc | hc | hc | hc | hc | hc <;>
  simp [paramEvents, recordEvents] at hc <;>
    (obtain ⟨x, hs2, rfl⟩ := hc; rfl)

theorem execute_ok_position_payload {net : Network} {pub : OuterPublicVariables}
    {priv : OuterPrivateVariables} {tr : List Event}
    (h : execute_outer_circuit net pub priv = some (.ok tr)) :
    ∀ i pl, Event.alloc .const (.position i) pl ∈ tr → pl = [i] := by
  intro i pl hev
  rcases execute_ok_event_cases h _ hev with hc | hc | hc | hc | hc | hc | hc |
    hc | hc | hc | hc | hc | hc | hc | hc | hc | hc | hc | hc | hc | hc <;>
  simp [paramEvents, recordEvents] at hc <;>
  (obtain ⟨j, e, rfl, rfl⟩ := hc; rfl)

/-!
## Claim theorems
-/

/-- C1: for every public/private variable assignment on which outer
synthesis succeeds, the input merged into the in-circuit inner-SNARK
verification is exactly, in this fixed order: ledger digest, each serial
number in declared order, each (commitment, encrypted record hash) pair
in declared order, the program commitment, the memo, the network id, the
inner-domain local data root, and the value balance. -/
theorem inner_snark_input_fixed_order {net : Network} {pub : OuterPublicVariables}
    {priv : OuterPrivateVariables} {tr : List Event}
    (h : execute_outer_circuit net pub priv = some (.ok tr)) :
    Event.checkInnerVerify priv.inner_snark_vk
      (feOf pub.inner_public_variables.ledger_digest ++
       (pub.inner_public_variables.kernel.serial_numbers.map feOf).flatten ++
       ((pub.inner_public_variables.kernel.commitments.zip
         pub.inner_public_variables.encrypted_record_hashes).map
           (fun p => feOf p.1 ++ feOf p.2)).flatten ++
       feOf priv.program_commitment ++
       feOf pub.inner_public_variables.kernel.memo ++
       feOf pub.inner_public_variables.kernel.network_id ++
       feOf priv.local_data_root ++
       feOf pub.inner_public_variables.kernel.value_balance)
      priv.inner_snark_proof ∈ tr := by
  obtain ⟨snE, snF, cmE, cmF, hsn, hcm, -, -, -, -, -, -, htr⟩ := execute_ok_elim h
  obtain ⟨hsnF, -⟩ := allocSerialNumbers_ok hsn
  obtain ⟨-, hcmF, -, -⟩ := allocCommitmentPairs_ok hcm
  subst htr hsnF hcmF
  simp only [List.mem_append]
  tauto

/-- C1 witness: the fixed-order merged input event on the concrete
instance. -/
theorem inner_snark_input_fixed_order_witness :
    Event.checkInnerVerify wPriv.inner_snark_vk
      (feOf wPub.inner_public_variables.ledger_digest ++
       (wPub.inner_public_variables.kernel.serial_numbers.map feOf).flatten ++
       ((wPub.inner_public_variables.kernel.commitments.zip
         wPub.inner_public_variables.encrypted_record_hashes).map
           (fun p => feOf p.1 ++ feOf p.2)).flatten ++
       feOf wPriv.program_commitment ++
       feOf wPub.inner_public_variables.kernel.memo ++
       feOf wPub.inner_public_variables.kernel.network_id ++
       feOf wPriv.local_data_root ++
       feOf wPub.inner_public_variables.kernel.value_balance)
      wPriv.inner_snark_proof ∈ wTrace :=
  @inner_snark_input_fixed_order wNet wPub wPriv wTrace rfl

/-- C3: in every successful synthesis the local data root is allocated
twice, independently, as an inner-SNARK-domain witness and as a
program-SNARK-domain witness, and a constraint enforces that the
little-endian bit encodings of the two allocations are equal. -/
theorem local_data_root_cross_domain {net : Network} {pub : OuterPublicVariables}
    {priv : OuterPrivateVariables} {tr : List Event}
    (h : execute_outer_circuit net pub priv = some (.ok tr)) :
    Event.alloc .witness .localDataRootInner (feOf priv.local_data_root) ∈ tr ∧
    Event.alloc .witness .localDataRootProgram (feOf priv.local_data_root) ∈ tr ∧
    Event.enforceEqualBits (net.innerBits (feOf priv.local_data_root))
      (net.programBits (feOf priv.local_data_root)) ∈ tr := by
  obtain ⟨snE, snF, cmE, cmF, -, -, -, -, -, -, -, -, htr⟩ := execute_ok_elim h
  subst htr
  refine ⟨?_, ?_, ?_⟩ <;> (simp only [List.mem_append]; simp)

/-- C3 witness: the two allocations and the bit-equality event on the
concrete instance. -/
theorem local_data_root_cross_domain_witness :
    Event.alloc .witness .localDataRootInner (feOf wPriv.local_data_root) ∈ wTrace ∧
    Event.alloc .witness .localDataRootProgram (feOf wPriv.local_data_root) ∈ wTrace ∧
    Event.enforceEqualBits (wNet.innerBits (feOf wPriv.local_data_root))
      (wNet.programBits (feOf wPriv.local_data_root)) ∈ wTrace :=
  @local_data_root_cross_domain wNet wPub wPriv wTrace rfl

/-- C4: in every successful synthesis the hash of the inner verifying
key's minimal-bit encoding is recomputed and enforced equal to the inner
circuit identifier, which is allocated as a public input of the outer
circuit. -/
theorem inner_circuit_id_binding {net : Network} {pub : OuterPublicVariables}
    {priv : OuterPrivateVariables} {tr : List Event}
    (h : execute_outer_circuit net pub priv = some (.ok tr)) :
    Event.alloc .pubInput .innerCircuitId [pub.inner_circuit_id] ∈ tr ∧
    Event.enforceEqualDigest
      (net.innerCircuitIdCRH (net.innerVkMinimalBits priv.inner_snark_vk))
      pub.inner_circuit_id ∈ tr := by
  obtain ⟨snE, snF, cmE, cmF, -, -, -, -, -, -, -, -, htr⟩ := execute_ok_elim h
  subst htr
  constructor <;> (simp only [List.mem_append]; simp [innerIdCheckEvents])

/-- C4 witness: the public-input allocation of the inner circuit ID and
the equality enforcement on the concrete instance. -/
theorem inner_circuit_id_binding_witness :
    Event.alloc .pubInput .innerCircuitId [wPub.inner_circuit_id] ∈ wTrace ∧
    Event.enforceEqualDigest
      (wNet.innerCircuitIdCRH (wNet.innerVkMinimalBits wPriv.inner_snark_vk))
      wPub.inner_circuit_id ∈ wTrace :=
  @inner_circuit_id_binding wNet wPub wPriv wTrace rfl

/-- C2: in every successful synthesis, the equality enforcements of the
whole trace are exactly: the local-data-root bit equality, the
program-commitment equality — whose recomputed side commits, under the
witness randomness, to the concatenation in slot order of the byte
encodings of the per-record candidate program identifiers, each obtained
by walking the record's membership path from its recomputed circuit
identifier — and the inner-circuit-ID equality.  In particular no
per-record candidate program identifier is ever compared to a separately
declared program id. -/
theorem program_commitment_binding {net : Network} {pub : OuterPublicVariables}
    {priv : OuterPrivateVariables} {tr : List Event}
    (h : execute_outer_circuit net pub priv = some (.ok tr)) :
    tr.filter Event.isEnforce =
      [Event.enforceEqualBits (net.innerBits (feOf priv.local_data_root))
         (net.programBits (feOf priv.local_data_root)),
       Event.enforceEqualComm
         (net.commit (((priv.program_proofs.take net.NUM_TOTAL_RECORDS).map
             (claimedProgramIdBytes net)).flatten) priv.program_randomness)
         priv.program_commitment.raw,
       Event.enforceEqualDigest
         (net.innerCircuitIdCRH (net.innerVkMinimalBits priv.inner_snark_vk))
         pub.inner_circuit_id] := by
  obtain ⟨snE, snF, cmE, cmF, hsn, hcm, -, -, -, -, -, -, htr⟩ := execute_ok_elim h
  subst htr
  have h1 : snE.filter Event.isEnforce = [] :=
    filter_enforce_of_allocs (fun ev hev => by
      obtain ⟨j, x, rfl⟩ := allocSerialNumbers_events hsn ev hev
      exact ⟨_, _, _, rfl⟩)
  have h2 : cmE.filter Event.isEnforce = [] :=
    filter_enforce_of_allocs (fun ev hev => by
      rcases allocCommitmentPairs_events hcm ev hev with ⟨j, x, rfl⟩ | ⟨j, x, rfl⟩ <;>
        exact ⟨_, _, _, rfl⟩)
  have h3 : ∀ (k : AllocKind) (s : Slot) (l : List Nat),
      (l.map (fun x => Event.alloc k s [x])).filter Event.isEnforce = [] :=
    fun k s l => filter_enforce_of_allocs (map_alloc_allocs k s l)
  have htake : (((priv.program_proofs.take net.NUM_TOTAL_RECORDS).map
      (claimedProgramIdBytes net)).take net.NUM_TOTAL_RECORDS) =
      ((priv.program_proofs.take net.NUM_TOTAL_RECORDS).map
        (claimedProgramIdBytes net)) := by
    refine List.take_of_length_le ?_
    simp only [List.length_map, List.length_take]
    omega
  simp only [List.filter_append, h1, h2, h3, processRecords_filter_enforce,
    processRecords_ids]
  simp [paramEvents, commitmentCheckEvents, innerIdCheckEvents,
    Event.isEnforce, htake, List.take_take]

/-- C2 witness: the three enforcement events of the concrete run. -/
theorem program_commitment_binding_witness :
    wTrace.filter Event.isEnforce =
      [Event.enforceEqualBits (wNet.innerBits (feOf wPriv.local_data_root))
         (wNet.programBits (feOf wPriv.local_data_root)),
       Event.enforceEqualComm
         (wNet.commit (((wPriv.program_proofs.take wNet.NUM_TOTAL_RECORDS).map
             (claimedProgramIdBytes wNet)).flatten) wPriv.program_randomness)
         wPriv.program_commitment.raw,
       Event.enforceEqualDigest
         (wNet.innerCircuitIdCRH (wNet.innerVkMinimalBits wPriv.inner_snark_vk))
         wPub.inner_circuit_id] :=
  @program_commitment_binding wNet wPub wPriv wTrace rfl

/-- C5: in every successful synthesis the program commitment and the
local data root are allocated only as private witnesses (never as
public-input slots), while the other inner public values are each bound
one field element at a time as distinct public-input slots. -/
theorem witness_only_allocations {net : Network} {pub : OuterPublicVariables}
    {priv : OuterPrivateVariables} {tr : List Event}
    (h : execute_outer_circuit net pub priv = some (.ok tr)) :
    (∀ k pl, Event.alloc k .programCommitment pl ∈ tr → k = .witness) ∧
    (∀ k pl, Event.alloc k .localDataRootInner pl ∈ tr → k = .witness) ∧
    (∀ k pl, Event.alloc k .localDataRootProgram pl ∈ tr → k = .witness) ∧
    Event.alloc .witness .programCommitment (feOf priv.program_commitment) ∈ tr ∧
    Event.alloc .witness .localDataRootInner (feOf priv.local_data_root) ∈ tr ∧
    Event.alloc .witness .localDataRootProgram (feOf priv.local_data_root) ∈ tr ∧
    (∀ s pl, Event.alloc .pubInput s pl ∈ tr → pl.length = 1) ∧
    (∀ x ∈ feOf pub.inner_public_variables.ledger_digest,
      Event.alloc .pubInput .ledgerDigest [x] ∈ tr) ∧
    (∀ k sn, pub.inner_public_variables.kernel.serial_numbers[k]? = some sn →
      ∀ x ∈ feOf sn, Event.alloc .pubInput (.serialNumber k) [x] ∈ tr) ∧
    (∀ k cm erh, pub.inner_public_variables.kernel.commitments[k]? = some cm →
      pub.inner_public_variables.encrypted_record_hashes[k]? = some erh →
      (∀ x ∈ feOf cm, Event.alloc .pubInput (.commitment k) [x] ∈ tr) ∧
      (∀ x ∈ feOf erh, Event.alloc .pubInput (.encryptedRecordHash k) [x] ∈ tr)) ∧
    (∀ x ∈ feOf pub.inner_public_variables.kernel.memo,
      Event.alloc .pubInput .memo [x] ∈ tr) ∧
    (∀ x ∈ feOf pub.inner_public_variables.kernel.network_id,
      Event.alloc .pubInput .networkId [x] ∈ tr) ∧
    (∀ x ∈ feOf pub.inner_public_variables.kernel.value_balance,
      Event.alloc .pubInput .valueBalance [x] ∈ tr) := by
  obtain ⟨snE, snF, cmE, cmF, hsn, hcm, -, -, -, -, -, -, htr⟩ := execute_ok_elim h
  refine ⟨fun k pl hev => execute_ok_alloc_kind h k _ pl hev (Or.inl rfl),
    fun k pl hev => execute_ok_alloc_kind h k _ pl hev (Or.inr (Or.inl rfl)),
    fun k pl hev => execute_ok_alloc_kind h k _ pl hev (Or.inr (Or.inr rfl)),
    ?_, ?_, ?_, execute_ok_pub_payload h, ?_, ?_, ?_, ?_, ?_, ?_⟩ <;> subst htr
  · simp only [List.mem_append]
    simp
  · simp only [List.mem_append]
    simp
  · simp only [List.mem_append]
    simp
  · intro x hx
    have hm : Event.alloc .pubInput .ledgerDigest [x] ∈
        (feOf pub.inner_public_variables.ledger_digest).map
          (fun y => Event.alloc .pubInput .ledgerDigest [y]) :=
      List.mem_map.mpr ⟨x, hx, rfl⟩
    simp only [List.mem_append]
    tauto
  · intro k sn hk x hx
    have hm := allocSerialNumbers_get hsn k sn hk x hx
    simp only [Nat.zero_add] at hm
    simp only [List.mem_append]
    tauto
  · intro k cm erh hk hrk
    obtain ⟨hc1, hc2⟩ := allocCommitmentPairs_get hcm k cm erh hk hrk
    simp only [Nat.zero_add] at hc1 hc2
    constructor
    · intro x hx
      have hm := hc1 x hx
      simp only [List.mem_append]
      tauto
    · intro x hx
      have hm := hc2 x hx
      simp only [List.mem_append]
      tauto
  · intro x hx
    have hm : Event.alloc .pubInput .memo [x] ∈
        (feOf pub.inner_public_variables.kernel.memo).map
          (fun y => Event.alloc .pubInput .memo [y]) :=
      List.mem_map.mpr ⟨x, hx, rfl⟩
    simp only [List.mem_append]
    tauto
  · intro x hx
    have hm : Event.alloc .pubInput .networkId [x] ∈
        (feOf pub.inner_public_variables.kernel.network_id).map
          (fun y => Event.alloc .pubInput .networkId [y]) :=
      List.mem_map.mpr ⟨x, hx, rfl⟩
    simp only [List.mem_append]
    tauto
  · intro x hx
    have hm : Event.alloc .pubInput .valueBalance [x] ∈
        (feOf pub.inner_public_variables.kernel.value_balance).map
          (fun y => Event.alloc .pubInput .valueBalance [y]) :=
      List.mem_map.mpr ⟨x, hx, rfl⟩
    simp only [List.mem_append]
    tauto

/-- C5 witness: the witness-kind allocations of the program commitment
and both local-data-root domains on the concrete instance. -/
theorem witness_only_allocations_witness :
    Event.alloc .witness .programCommitment (feOf wPriv.program_commitment) ∈ wTrace ∧
    Event.alloc .witness .localDataRootInner (feOf wPriv.local_data_root) ∈ wTrace ∧
    Event.alloc .witness .localDataRootProgram (feOf wPriv.local_data_root) ∈ wTrace :=
  ⟨(@witness_only_allocations wNet wPub wPriv wTrace rfl).2.2.2.1,
   (@witness_only_allocations wNet wPub wPriv wTrace rfl).2.2.2.2.1,
   (@witness_only_allocations wNet wPub wPriv wTrace rfl).2.2.2.2.2.1⟩

/-- C6: in every successful synthesis, each processed record slot `k`
gets its position allocated as the constant field element `k` and its
program proof verified against the input formed by merging that position
with the program-domain local data root; distinct slots always carry
distinct position payloads. -/
theorem program_input_slot_position {net : Network} {pub : OuterPublicVariables}
    {priv : OuterPrivateVariables} {tr : List Event}
    (h : execute_outer_circuit net pub priv = some (.ok tr)) :
    (∀ k e, k < net.NUM_TOTAL_RECORDS → priv.program_proofs[k]? = some e →
      Event.alloc .const (.position k) [k] ∈ tr ∧
      Event.checkProgramVerify e.verifying_key (k :: feOf priv.local_data_root)
        e.proof ∈ tr) ∧
    (∀ i j pi pj, Event.alloc .const (.position i) pi ∈ tr →
      Event.alloc .const (.position j) pj ∈ tr → pi = pj → i = j) := by
  constructor
  · obtain ⟨snE, snF, cmE, cmF, -, -, -, -, -, -, -, -, htr⟩ := execute_ok_elim h
    intro k e hkN hk
    have htk : (priv.program_proofs.take net.NUM_TOTAL_RECORDS)[k]? = some e := by
      rw [List.getElem?_take_of_lt hkN]
      exact hk
    obtain ⟨hm1, hm2⟩ := processRecords_get net (feOf priv.local_data_root)
      (priv.program_proofs.take net.NUM_TOTAL_RECORDS) 0 k e htk
    simp only [Nat.zero_add] at hm1 hm2
    subst htr
    constructor <;> (simp only [List.mem_append]; tauto)
  · intro i j pi pj hi hj hpp
    have h1 := execute_ok_position_payload h i pi hi
    have h2 := execute_ok_position_payload h j pj hj
    rw [h1, h2] at hpp
    simpa using hpp

/-- C6 witness: the position-1 constant allocation and program-proof
verification on the concrete instance. -/
theorem program_input_slot_position_witness :
    Event.alloc .const (.position 1) [1] ∈ wTrace ∧
    Event.checkProgramVerify 18 (1 :: feOf wPriv.local_data_root) 19 ∈ wTrace :=
  (@program_input_slot_position wNet wPub wPriv wTrace rfl).1 1 ⟨17, 18, 19⟩
    (by decide) rfl

/-- C7: under the Private Variables invariant that the number of
per-record program proofs equals NUM_TOTAL_RECORDS, every successful
synthesis verifies exactly NUM_TOTAL_RECORDS program proofs and feeds
exactly NUM_TOTAL_RECORDS candidate program identifiers into the
program-commitment input. -/
theorem record_count_fixed {net : Network} {pub : OuterPublicVariables}
    {priv : OuterPrivateVariables} {tr : List Event}
    (hlen : priv.program_proofs.length = net.NUM_TOTAL_RECORDS)
    (h : execute_outer_circuit net pub priv = some (.ok tr)) :
    (tr.filter Event.isProgramVerify).length = net.NUM_TOTAL_RECORDS ∧
    ((priv.program_proofs.take net.NUM_TOTAL_RECORDS).map
      (claimedProgramIdBytes net)).length = net.NUM_TOTAL_RECORDS ∧
    Event.enforceEqualComm
      (net.commit (((priv.program_proofs.take net.NUM_TOTAL_RECORDS).map
        (claimedProgramIdBytes net)).flatten) priv.program_randomness)
      priv.program_commitment.raw ∈ tr := by
  obtain ⟨snE, snF, cmE, cmF, hsn, hcm, -, -, -, -, -, -, htr⟩ := execute_ok_elim h
  subst htr
  have h1 : snE.filter Event.isProgramVerify = [] :=
    filter_verify_of_allocs (fun ev hev => by
      obtain ⟨j, x, rfl⟩ := allocSerialNumbers_events hsn ev hev
      exact ⟨_, _, _, rfl⟩)
  have h2 : cmE.filter Event.isProgramVerify = [] :=
    filter_verify_of_allocs (fun ev hev => by
      rcases allocCommitmentPairs_events hcm ev hev with ⟨j, x, rfl⟩ | ⟨j, x, rfl⟩ <;>
        exact ⟨_, _, _, rfl⟩)
  have h3 : ∀ (k : AllocKind) (s : Slot) (l : List Nat),
      (l.map (fun x => Event.alloc k s [x])).filter Event.isProgramVerify = [] :=
    fun k s l => filter_verify_of_allocs (map_alloc_allocs k s l)
  have htake : (((priv.program_proofs.take net.NUM_TOTAL_RECORDS).map
      (claimedProgramIdBytes net)).take net.NUM_TOTAL_RECORDS) =
      ((priv.program_proofs.take net.NUM_TOTAL_RECORDS).map
        (claimedProgramIdBytes net)) := by
    refine List.take_of_length_le ?_
    simp only [List.length_map, List.length_take]
    omega
  refine ⟨?_, ?_, ?_⟩
  · simp only [List.filter_append, h1, h2, h3, List.length_append]
    simp [paramEvents, commitmentCheckEvents, innerIdCheckEvents,
      Event.isProgramVerify, processRecords_verify_count, hlen]
  · simp [hlen]
  · have hm : Event.enforceEqualComm
        (net.commit (((priv.program_proofs.take net.NUM_TOTAL_RECORDS).map
          (claimedProgramIdBytes net)).flatten) priv.program_randomness)
        priv.program_commitment.raw ∈
        commitmentCheckEvents net priv
          ((processRecords net (feOf priv.local_data_root)
            (priv.program_proofs.take net.NUM_TOTAL_RECORDS) 0).2) := by
      simp [commitmentCheckEvents, processRecords_ids, htake, List.take_take]
    simp only [List.mem_append]
    tauto

/-- C7 witness: the concrete instance has two program proofs, two
verification events and a two-identifier commitment input. -/
theorem record_count_fixed_witness :
    (wTrace.filter Event.isProgramVerify).length = wNet.NUM_TOTAL_RECORDS ∧
    ((wPriv.program_proofs.take wNet.NUM_TOTAL_RECORDS).map
      (claimedProgramIdBytes wNet)).length = wNet.NUM_TOTAL_RECORDS ∧
    Event.enforceEqualComm
      (wNet.commit (((wPriv.program_proofs.take wNet.NUM_TOTAL_RECORDS).map
        (claimedProgramIdBytes wNet)).flatten) wPriv.program_randomness)
      wPriv.program_commitment.raw ∈ wTrace :=
  @record_count_fixed wNet wPub wPriv wTrace rfl rfl

/-- C8: a circuit id absent from the registry makes both `execute` and
`execute_blank` fail with the missing-leaf error; a present circuit id
whose proving routine succeeds yields an `Execution` bundling the
membership path, the verifying key and the produced proof. -/
theorem program_execute_spec (p : Program) (id : Nat) (pubv privv : Nat) :
    (p.circuits.get_circuit id = none →
      p.execute id pubv privv = .error (.MissingLeaf id) ∧
      p.execute_blank id = .error (.MissingLeaf id)) ∧
    (∀ c proof, p.circuits.get_circuit id = some c →
      c.run pubv privv = .ok proof →
      p.execute id pubv privv = .ok
        { program_path := p.circuits.pathOf id,
          verifying_key := c.verifying_key,
          proof := proof }) := by
  constructor
  · intro hnone
    constructor <;> simp [Program.execute, Program.execute_blank, hnone]
  · intro c proof hc hrun
    simp [Program.execute, hc, ProgramCircuitTree.get_program_path,
      ProgramCircuitTree.contains_circuit, hrun]

/-- C8 witness: on the concrete two-circuit program, an unregistered id
yields missing-leaf from both entry points and a registered id with a
succeeding proving routine yields the full `Execution` bundle. -/
theorem program_execute_spec_witness :
    (wProgram.execute 3 5 6 = .error (.MissingLeaf 3) ∧
     wProgram.execute_blank 3 = .error (.MissingLeaf 3)) ∧
    wProgram.execute 1 5 6 = .ok
      { program_path := 10, verifying_key := 31, proof := 11 } :=
  ⟨(program_execute_spec wProgram 3 5 6).1 rfl,
   (program_execute_spec wProgram 1 5 6).2 wCircuitA 11 rfl rfl⟩

/-- C9: with matching commitment/encrypted-record-hash counts, the only
typed error the synthesis routine ever returns is `AssignmentMissing`,
and it returns it exactly when the conversion to field elements of some
required value fails; otherwise synthesis runs to completion. -/
theorem alloc_failure_behavior (net : Network) (pub : OuterPublicVariables)
    (priv : OuterPrivateVariables)
    (hlen : pub.inner_public_variables.kernel.commitments.length =
      pub.inner_public_variables.encrypted_record_hashes.length) :
    (∀ e, execute_outer_circuit net pub priv = some (.error e) →
      e = .AssignmentMissing) ∧
    (execute_outer_circuit net pub priv = some (.error .AssignmentMissing) ↔
      conversionFails pub priv = true) := by
  refine ⟨fun e he => execute_error_eq he, ?_, ?_⟩
  · intro h
    cases hcf : conversionFails pub priv
    · exact absurd h (execute_no_error_of_not_conversionFails hcf)
    · rfl
  · intro hcf
    cases hr : execute_outer_circuit net pub priv with
    | none => exact absurd hr (execute_ne_none hlen)
    | some r =>
      cases r with
      | ok tr =>
        have hfalse := execute_ok_not_conversionFails hr
        rw [hcf] at hfalse
        simp at hfalse
      | error e =>
        obtain rfl := execute_error_eq hr
        rfl

/-- C9 witness: on the concrete instance with a failing ledger-digest
conversion (and matching pair counts), synthesis returns exactly the
`AssignmentMissing` error. -/
theorem alloc_failure_behavior_witness :
    (∀ e, execute_outer_circuit wNet fPub wPriv = some (.error e) →
      e = SynthesisError.AssignmentMissing) ∧
    (execute_outer_circuit wNet fPub wPriv =
      some (.error .AssignmentMissing) ↔ conversionFails fPub wPriv = true) :=
  alloc_failure_behavior wNet fPub wPriv rfl

/-- C10 counterexample: with two commitments, zero encrypted record
hashes (differing lengths) and a ledger digest whose conversion fails,
`execute_outer_circuit` returns the typed `AssignmentMissing` error
instead of panicking, refuting the claim that differing lengths always
panic rather than returning a typed error. -/
theorem zip_eq_panic_counterexample :
    cPub.inner_public_variables.kernel.commitments.length ≠
      cPub.inner_public_variables.encrypted_record_hashes.length ∧
    execute_outer_circuit wNet cPub wPriv = some (.error .AssignmentMissing) :=
  ⟨by decide, rfl⟩

/-- C10 amended: with equal commitment/encrypted-record-hash counts the
`zip_eq` panic is unreachable; with differing counts, provided every
required value converts to field elements (so no allocation error
pre-empts the iteration), the routine panics instead of returning a
typed error. -/
theorem zip_eq_panic_totality (net : Network) (pub : OuterPublicVariables)
    (priv : OuterPrivateVariables) :
    (pub.inner_public_variables.kernel.commitments.length =
        pub.inner_public_variables.encrypted_record_hashes.length →
      execute_outer_circuit net pub priv ≠ none) ∧
    (pub.inner_public_variables.kernel.commitments.length ≠
        pub.inner_public_variables.encrypted_record_hashes.length →
      conversionFails pub priv = false →
      execute_outer_circuit net pub priv = none) := by
  refine ⟨fun hlen => execute_ne_none hlen, fun hlen hcf => ?_⟩
  simp only [conversionFails, Bool.not_eq_false', Bool.and_eq_true] at hcf
  obtain ⟨⟨⟨⟨⟨⟨⟨⟨hld, hsn⟩, hcm⟩, herh⟩, -⟩, -⟩, -⟩, -⟩, -⟩ := hcf
  obtain ⟨ldl, hldl⟩ := Option.isSome_iff_exists.mp hld
  obtain ⟨snE, snF, hsnok⟩ := @allocSerialNumbers_isOk _ 0 hsn
  unfold execute_outer_circuit
  simp [allocInputFE_some hldl, hsnok,
    allocCommitmentPairs_none_of_mismatch hcm herh hlen]

/-- C10 amended witness: on the concrete instances, the matched-length
run does not panic and the mismatched-length all-converting run does. -/
theorem zip_eq_panic_totality_witness :
    execute_outer_circuit wNet wPub wPriv ≠ none ∧
    execute_outer_circuit wNet mPub wPriv = none :=
  ⟨(zip_eq_panic_totality wNet wPub wPriv).1 rfl,
   (zip_eq_panic_totality wNet mPub wPriv).2 (by decide) (by decide)⟩

end SnarkVM
